import Mathlib

/-!
Verification development for the helper module of a fault-injection
framework for circuit netlists (`helpers.py`).

The module's functions are embedded shallowly:

* a networkx `DiGraph` whose nodes carry attribute dicts becomes a
  `Graph`: an association list of node keys to attribute dicts
  (`Attrs`, an association list from attribute names to `Node`
  records), plus a list of directed edges;
* association lists follow Python `dict` semantics: insertion keeps
  the position of an existing key and overwrites its value
  (`dictInsert`), lookup returns the first match (`attrsFind`);
* `nx.relabel_nodes(graph, mapping)` (the default `copy=True` path)
  is `relabelNodes`/`relabelEdges`: a fresh dict is rebuilt in node
  order, so two nodes mapped to the same label merge and the later
  attribute dict wins, exactly as `H._node.update(...)` behaves;
* logging output becomes the returned list of emitted lines, with the
  module-level horizontal-rule string passed in as `hdr`;
* `np.unique(gates, return_counts=True)` becomes sorting the
  deduplicated list lexicographically (`sortStrings`) and counting
  occurrences in the original list;
* the filesystem of `pathlib` is a value `FS` (no symlinks, path
  strings assumed in normal form): `Path(s)` keeps the string,
  `is_file`/`exists` resolve relative paths against the current
  working directory;
* `subprocess.run(["git", ...])` and `pkg_resources.require` become
  an environment `Env` recording either the produced string or the
  exception the call raises; `sys.exit`/`exit(0)` and an uncaught
  exception become the two constructors of `ProcOutcome`.

Fallible code returns `Except`; every definition is executable.
-/

/-- The `Node` record: one gate/cell instance of the circuit
(`helpers.py`, class `Node`). -/
structure Node where
  name : String
  parent_name : String
  type : String
  inputs : List String
  outputs : List String
  stage : Nat
  node_color : String
deriving DecidableEq, Repr

/-- The `Port` record: one input or output port of a module
(`helpers.py`, class `Port`). -/
structure Port where
  name : String
  pins : List String
  type : String
  length : Nat
deriving DecidableEq, Repr

/-- The attribute dict attached to a graph node: an association list
from attribute names to `Node` records (the framework stores the
record under the key `"node"`; a node lacking that key models a
record-less graph node). -/
abbrev Attrs := List (String × Node)

/-- First-match lookup in an attribute dict (`d[k]` / `k in d`). -/
def attrsFind (a : Attrs) (k : String) : Option Node :=
  match a with
  | [] => none
  | (k2, n) :: rest => if k2 == k then some n else attrsFind rest k

/-- The test `"node" in node_attribute` (dict key-membership test). -/
def hasNodeKey (a : Attrs) : Bool :=
  (attrsFind a "node").isSome

/-- In-place mutation of the record stored under key `k`: the entry
keeps its position, only its value changes (models
`node_attribute["node"].name = ...`). -/
def attrsUpdate (k : String) (f : Node → Node) : Attrs → Attrs
  | [] => []
  | (k2, n) :: rest =>
    if k2 == k then (k2, f n) :: rest else (k2, n) :: attrsUpdate k f rest

/-- A circuit graph: node keys with their attribute dicts, in
insertion order, plus the directed edges.  Well-formed graphs have
pairwise distinct keys (they model a Python dict). -/
structure Graph where
  nodes : List (String × Attrs)
  edges : List (String × String)
deriving DecidableEq, Repr

/-- Python dict insertion: overwrite in place if the key exists,
append otherwise. -/
def dictInsert {α : Type} (k : String) (v : α) :
    List (String × α) → List (String × α)
  | [] => [(k, v)]
  | (k2, v2) :: rest =>
    if k2 == k then (k2, v) :: rest else (k2, v2) :: dictInsert k v rest

/-- DiGraph edge insertion (`add_edges_from`): re-adding an existing
edge overwrites it in place, a new edge is appended. -/
def edgeInsert (e : String × String) :
    List (String × String) → List (String × String)
  | [] => [e]
  | e2 :: rest => if e2 == e then e :: rest else e2 :: edgeInsert e rest

/-- The suffix applied to a record: `node.name = node.name + suffix`. -/
def updAttrs (suffix : String) (a : Attrs) : Attrs :=
  attrsUpdate "node" (fun n => { n with name := n.name ++ suffix }) a

/-- The loop body of `rename_nodes`: walks the nodes in order,
building the `name_mapping` dict and mutating each record's `name`
field in place.  A node whose attribute dict lacks the `"node"` key
makes the original raise `KeyError` (both branches dereference
`node_attribute["node"]`), modelled as `Except.error`. -/
def buildRename (suffix : String) (ignore_inputs : Bool) :
    List (String × Attrs) →
      Except String (List (String × String) × List (String × Attrs))
  | [] => Except.ok ([], [])
  | (k, attrs) :: rest =>
    match attrsFind attrs "node" with
    | none => Except.error "KeyError: node"
    | some n =>
      match buildRename suffix ignore_inputs rest with
      | Except.error e => Except.error e
      | Except.ok (mapping, nodesRest) =>
        if ignore_inputs && n.type == "input" then
          Except.ok (mapping, (k, attrs) :: nodesRest)
        else
          Except.ok ((k, k ++ suffix) :: mapping,
            (k, updAttrs suffix attrs) :: nodesRest)

/-- Model of `mapping.get(n, n)`: look a key up in `name_mapping`, defaulting
to the key itself. -/
def mappingGet (mapping : List (String × String)) (k : String) : String :=
  match mapping.find? (fun p => p.1 == k) with
  | some p => p.2
  | none => k

/-- Model of `nx.relabel_nodes` (copy path), node part: rebuild the node dict
in iteration order under the relabeling `m`; colliding new labels
merge, the later attribute dict winning. -/
def relabelNodes (m : String → String) (nodes : List (String × Attrs)) :
    List (String × Attrs) :=
  nodes.foldl (fun acc p => dictInsert (m p.1) p.2 acc) []

/-- Model of `nx.relabel_nodes` (copy path), edge part: re-add every edge with
both endpoints relabeled. -/
def relabelEdges (m : String → String) (edges : List (String × String)) :
    List (String × String) :=
  edges.foldl (fun acc e => edgeInsert (m e.1, m e.2) acc) []

/-- Model of `rename_nodes(graph, suffix, ignore_inputs)`: append `suffix` to
the key and to the record's `name` of every node, skipping nodes of
type `"input"` when `ignore_inputs` is set; then relabel the graph. -/
def rename_nodes (g : Graph) (suffix : String) (ignore_inputs : Bool) :
    Except String Graph :=
  match buildRename suffix ignore_inputs g.nodes with
  | Except.error e => Except.error e
  | Except.ok (mapping, nodes2) =>
    Except.ok { nodes := relabelNodes (mappingGet mapping) nodes2,
                edges := relabelEdges (mappingGet mapping) g.edges }

/-- The `type` fields collected by `print_graph_stat`: one entry per
node whose attribute dict has the `"node"` key, in graph order. -/
def gateTypes (g : Graph) : List String :=
  (g.nodes.map Prod.snd).filterMap
    (fun a => (attrsFind a "node").map Node.type)

/-- Strict lexicographic comparison of character lists by code
point, the order Python/numpy use on `str` values. -/
def lexLt : List Char → List Char → Bool
  | _, [] => false
  | [], _ :: _ => true
  | a :: as, b :: bs =>
    if a < b then true
    else if b < a then false
    else lexLt as bs

/-- Strict lexicographic order on strings. -/
def strLtB (a b : String) : Bool :=
  lexLt a.data b.data

/-- Non-strict lexicographic order on strings, used to model
`np.unique`'s sort. -/
def strLeB (a b : String) : Bool :=
  strLtB a b || a == b

/-- Insert into a lexicographically sorted list of strings. -/
def insertStr (x : String) : List String → List String
  | [] => [x]
  | y :: ys => if strLeB x y then x :: y :: ys else y :: insertStr x ys

/-- Insertion sort of strings, ascending lexicographic. -/
def sortStrings : List String → List String
  | [] => []
  | x :: xs => insertStr x (sortStrings xs)

/-- Model of `np.unique(gates, return_counts=True)`: the distinct values in
ascending order, paired with their occurrence counts. -/
def npUnique (gates : List String) : List (String × Nat) :=
  (sortStrings gates.dedup).map (fun t => (t, gates.count t))

/-- Model of `print_graph_stat(graph)`: one `"<type>: <count>"` line per
distinct gate type, then the horizontal-rule line `hdr` (the
module-level `header` string).  Returns the emitted lines. -/
def print_graph_stat (hdr : String) (g : Graph) : List String :=
  (npUnique (gateTypes g)).map (fun p => p.1 ++ ": " ++ toString p.2)
    ++ [hdr]

/-- The membership test of `get_registers`:
`("node" in node) and (node["node"].type in registers)`. -/
def isRegAttrs (registers : List String) (a : Attrs) : Bool :=
  match attrsFind a "node" with
  | some n => registers.contains n.type
  | none => false

/-- Model of `get_registers(graph)`: the attribute dicts (not the bare
records) of the nodes classified as registers by the external cell
library table `registers`, in graph order. -/
def get_registers (registers : List String) (g : Graph) : List Attrs :=
  (g.nodes.map Prod.snd).filter (isRegAttrs registers)

/-- The filesystem visible to the path validators: the current
working directory plus the absolute paths of the existing regular
files and directories.  Paths are taken in normal form (no symlinks,
no `..` or `.` components inside). -/
structure FS where
  cwd : String
  files : List String
  dirs : List String
deriving DecidableEq, Repr

/-- Whether a path string is absolute (starts with `/`). -/
def isAbsB (p : String) : Bool :=
  match p.toList with
  | '/' :: _ => true
  | _ => false

/-- Make a path absolute against the current working directory (the
resolution `pathlib` performs when testing existence, and what
`Path.resolve()` returns for such paths). -/
def resolvePath (fs : FS) (p : String) : String :=
  if isAbsB p then p
  else if p == "." then fs.cwd
  else fs.cwd ++ "/" ++ p

/-- Model of `Path(p).is_file()`. -/
def isFile (fs : FS) (p : String) : Bool :=
  fs.files.contains (resolvePath fs p)

/-- Model of `Path(p).exists()`: true for a regular file or a directory. -/
def pathExists (fs : FS) (p : String) : Bool :=
  fs.files.contains (resolvePath fs p) || fs.dirs.contains (resolvePath fs p)

/-- Split a character list at `/` (the semantics of
`str.split("/")`: `"a/b"` gives `["a", "b"]`, `""` gives `[""]`). -/
def splitSlash : List Char → List (List Char)
  | [] => [[]]
  | c :: rest =>
    if c == '/' then [] :: splitSlash rest
    else
      match splitSlash rest with
      | [] => [[c]]
      | g :: gs => (c :: g) :: gs

/-- Rejoin path components with `/` (`"/".join(...)`). -/
def joinSlash : List (List Char) → List Char
  | [] => []
  | [g] => g
  | g :: gs => g ++ '/' :: joinSlash gs

/-- Model of `Path(p).parent`: drop the last path component; the parent of a
single-component relative path is `"."`, the parent of `/x` is `/`. -/
def parentPath (p : String) : String :=
  if p == "/" || p == "" || p == "." then
    (if p == "/" then "/" else ".")
  else
    match p.toList with
    | '/' :: rest =>
      let comps := splitSlash rest
      if comps.length ≤ 1 then "/"
      else String.mk ('/' :: joinSlash comps.dropLast)
    | cs =>
      let comps := splitSlash cs
      if comps.length ≤ 1 then "."
      else String.mk (joinSlash comps.dropLast)

/-- Model of `ap_check_file_exists(file_path)`: succeed with the constructed
path when it is an existing regular file, otherwise raise
`ArgumentTypeError(f"File {path} does not exist")`. -/
def ap_check_file_exists (fs : FS) (file_path : String) :
    Except String String :=
  if isFile fs file_path then Except.ok file_path
  else Except.error ("File " ++ file_path ++ " does not exist")

/-- Model of `ap_check_dir_exists(path)`: succeed with the constructed path
when its parent exists, otherwise raise
`ArgumentTypeError(f"Path {path.parent} does not exist")`. -/
def ap_check_dir_exists (fs : FS) (path : String) :
    Except String String :=
  if pathExists fs (parentPath path) then Except.ok path
  else Except.error ("Path " ++ parentPath path ++ " does not exist")

/-- The loop body of `print_ports`: build the `Inputs:` and
`Outputs:` strings in one pass over the ports dict. -/
def portStep (acc : String × String) (pp : String × Port) :
    String × String :=
  if pp.2.type == "input" then (acc.1 ++ pp.1 ++ " ", acc.2)
  else (acc.1, acc.2 ++ pp.1 ++ " ")

/-- Model of `print_ports(ports)`: the four emitted lines, in order rule,
inputs, outputs, rule. -/
def print_ports (hdr : String) (ports : List (String × Port)) :
    List String :=
  let acc := ports.foldl portStep ("Inputs:  ", "Outputs: ")
  [hdr, acc.1, acc.2, hdr]

/-- Space-separated concatenation with a trailing space per name, the
shape `print_ports` accumulates. -/
def joinSp : List String → String
  | [] => ""
  | s :: rest => s ++ " " ++ joinSp rest

/-- Whitespace for the purposes of `str.strip()`. -/
def isSpaceB (c : Char) : Bool :=
  c == ' ' || c == '\t' || c == '\n' || c == '\r'

/-- Model of `s.strip()`: drop leading and trailing whitespace. -/
def strTrim (s : String) : String :=
  String.mk (((s.toList.dropWhile isSpaceB).reverse.dropWhile
    isSpaceB).reverse)

/-- The environment `show_and_exit` runs in: the outcome of the
`subprocess.run(["git", "describe", ...])` call (`Except.ok` the raw
stdout when the subprocess runs, `Except.error` when the call itself
raises, e.g. the `git` executable is not found), and the outcome of
`pkg_resources.require(p)[0].version` per package name. -/
structure Env where
  gitDescribe : Except String String
  pkgVersion : String → Except String String

/-- How a call of `show_and_exit` leaves the process: `exited` via
`exit(0)` with the lines written to stderr, or `raised` by an
uncaught exception. -/
inductive ProcOutcome where
  | exited (code : Nat) (stderrLines : List String)
  | raised (msg : String)
deriving DecidableEq, Repr

/-- Whether the process terminated via `exit`. -/
def ProcOutcome.isExited : ProcOutcome → Bool
  | .exited _ _ => true
  | .raised _ => false

/-- The package loop of `show_and_exit`: write
`"<name> <installed-version>"` per package, propagating a raise from
the package-metadata registry. -/
def writePkgLines (env : Env) (acc : List String) :
    List String → ProcOutcome
  | [] => ProcOutcome.exited 0 acc
  | p :: rest =>
    match env.pkgVersion p with
    | Except.error e => ProcOutcome.raised e
    | Except.ok v => writePkgLines env (acc ++ [p ++ " " ++ v]) rest

/-- Model of `show_and_exit(clitool, packages)`: query git for a revision
string, fall back to a literal message when the stripped output is
empty, write the version line and one line per package to stderr,
then `exit(0)`.  An exception from the subprocess call or from the
package registry propagates uncaught. -/
def show_and_exit (env : Env) (clitool : String) (packages : List String) :
    ProcOutcome :=
  match env.gitDescribe with
  | Except.error e => ProcOutcome.raised e
  | Except.ok out =>
    let ver0 := strTrim out
    let ver := if ver0 == "" then "not found (not in Git repository?)"
               else ver0
    writePkgLines env [clitool ++ " Git version " ++ ver] packages

/-- Whether `rename_nodes` renames a node carrying this attribute
dict: true unless `ignore_inputs` is set and the record's type is
`"input"` (for a record-less dict the original raises instead; the
value is irrelevant there). -/
def renamedB (ignore_inputs : Bool) (a : Attrs) : Bool :=
  match attrsFind a "node" with
  | some n => !(ignore_inputs && n.type == "input")
  | none => true

/-- The new key of graph key `k` under the relabeling `rename_nodes`
computes: `k ++ suffix` when the node `k` is renamed, `k` otherwise
(also for keys absent from the graph, as `mapping.get(k, k)`). -/
def renameKey (g : Graph) (suffix : String) (ignore_inputs : Bool)
    (k : String) : String :=
  match g.nodes.find? (fun p => p.1 == k) with
  | some p => if renamedB ignore_inputs p.2 then k ++ suffix else k
  | none => k

/-- Erase the `name` field of every record in an attribute dict
(used to state that renaming touches nothing but names). -/
def eraseName (a : Attrs) : Attrs :=
  a.map (fun q => (q.1, { q.2 with name := "" }))

/-- Drop the nodes whose attribute dict lacks the `"node"` key. -/
def stripRecordless (g : Graph) : Graph :=
  { g with nodes := g.nodes.filter (fun p => hasNodeKey p.2) }

instance instDecEqExcept {ε α : Type} [DecidableEq ε] [DecidableEq α] :
    DecidableEq (Except ε α) := fun x y =>
  match x, y with
  | Except.ok a, Except.ok b =>
    if h : a = b then isTrue (by rw [h])
    else isFalse (fun hh => h (Except.ok.inj hh))
  | Except.error a, Except.error b =>
    if h : a = b then isTrue (by rw [h])
    else isFalse (fun hh => h (Except.error.inj hh))
  | Except.ok _, Except.error _ => isFalse (fun hh => Except.noConfusion hh)
  | Except.error _, Except.ok _ => isFalse (fun hh => Except.noConfusion hh)

/-- Shorthand for a record with only `name` and `type` varying. -/
def mkNode (name type : String) : Node :=
  { name := name, parent_name := "top", type := type,
    inputs := [], outputs := [], stage := 0, node_color := "red" }

/-- The `name_mapping` entry the rename loop produces for one node. -/
def mapFn (suffix : String) (ignore_inputs : Bool) (p : String × Attrs) :
    Option (String × String) :=
  if renamedB ignore_inputs p.2 then some (p.1, p.1 ++ suffix) else none

/-- The in-place record mutation the rename loop applies to one node. -/
def mutFn (suffix : String) (ignore_inputs : Bool) (p : String × Attrs) :
    String × Attrs :=
  (p.1, if renamedB ignore_inputs p.2 then updAttrs suffix p.2 else p.2)

/-- The list of new node keys the rename computes, in graph order. -/
def newKeys (g : Graph) (suffix : String) (ignore_inputs : Bool) :
    List String :=
  g.nodes.map (fun p => if renamedB ignore_inputs p.2 then p.1 ++ suffix
                        else p.1)

/-- The success value of an `Except`-modelled Python call. -/
def okStr : Except String String → Option String
  | Except.ok v => some v
  | Except.error _ => none

/-- A graph with one `AND2` node keyed `a` and one `input` node keyed
`a_c`: renaming with suffix `_c` while ignoring inputs maps `a` to
the already-taken key `a_c`. -/
def gClash : Graph :=
  { nodes := [("a", [("node", mkNode "a" "AND2")]),
              ("a_c", [("node", mkNode "a_c" "input")])],
    edges := [] }

/-- A second clashing graph (an `OR2` node `b` and an `input` node
`b_x`, suffix `_x`). -/
def gClash2 : Graph :=
  { nodes := [("b", [("node", mkNode "b" "OR2")]),
              ("b_x", [("node", mkNode "b_x" "input")])],
    edges := [] }

/-- A collision-free witness graph: an `AND2` node `x` fed by an
`input` node `in1`. -/
def gWit : Graph :=
  { nodes := [("x", [("node", mkNode "x" "AND2")]),
              ("in1", [("node", mkNode "in1" "input")])],
    edges := [("in1", "x")] }

/-- A second collision-free witness graph for the frame claim. -/
def gWit2 : Graph :=
  { nodes := [("y", [("node", mkNode "y" "DFF")]),
              ("in2", [("node", mkNode "in2" "input")])],
    edges := [("in2", "y")] }

/-- The graph of the stat example: gate types
`AND2, AND2, DFF, OR2`. -/
def statExample : Graph :=
  { nodes := [("n1", [("node", mkNode "n1" "AND2")]),
              ("n2", [("node", mkNode "n2" "AND2")]),
              ("n3", [("node", mkNode "n3" "DFF")]),
              ("n4", [("node", mkNode "n4" "OR2")])],
    edges := [] }

/-- The ports of the port-printing example: `a` (input), `b`
(output), `c` (input), in that insertion order. -/
def portsExample : List (String × Port) :=
  [("a", { name := "a", pins := [], type := "input", length := 1 }),
   ("b", { name := "b", pins := [], type := "output", length := 1 }),
   ("c", { name := "c", pins := [], type := "input", length := 1 })]

/-- A filesystem whose working directory `/home` contains the
regular file `a.txt`. -/
def fsHome : FS :=
  { cwd := "/home", files := ["/home/a.txt"], dirs := ["/", "/home"] }

/-- An environment in which the subprocess call for `git describe`
itself raises (the `git` executable is not found). -/
def envNoGit : Env :=
  { gitDescribe := Except.error "FileNotFoundError: git",
    pkgVersion := fun _ => Except.ok "1.0" }

/-- An environment in which `git describe` prints a revision and the
package registry knows `networkx`. -/
def envGit : Env :=
  { gitDescribe := Except.ok "v1.2-dirty\n",
    pkgVersion := fun p => if p == "networkx" then Except.ok "2.8.8"
                           else Except.error "DistributionNotFound" }

/-- Looking the mutated key up after an in-place record update. -/
theorem attrsFind_attrsUpdate (k : String) (f : Node → Node) (a : Attrs) :
    attrsFind (attrsUpdate k f a) k = (attrsFind a k).map f := by
  induction a with
  | nil => rfl
  | cons q rest ih =>
    obtain ⟨k2, n⟩ := q
    by_cases h : k2 = k
    · subst h
      simp [attrsUpdate, attrsFind]
    · simp [attrsUpdate, attrsFind, h, ih]

/-- An unrelated key is untouched by an in-place record update. -/
theorem attrsFind_attrsUpdate_ne (k k2 : String) (f : Node → Node)
    (a : Attrs) (h : k2 ≠ k) :
    attrsFind (attrsUpdate k f a) k2 = attrsFind a k2 := by
  induction a with
  | nil => rfl
  | cons q rest ih =>
    obtain ⟨k3, n⟩ := q
    by_cases h3 : k3 = k
    · subst h3
      have hb : (k3 == k2) = false :=
        beq_eq_false_iff_ne.mpr (fun hh => h hh.symm)
      simp [attrsUpdate, attrsFind, hb]
    · simp [attrsUpdate, h3, attrsFind, ih]

/-- Membership in a dict after insertion. -/
theorem mem_dictInsert {α : Type} {q : String × α} {k : String} {v : α} :
    ∀ {l : List (String × α)}, q ∈ dictInsert k v l → q = (k, v) ∨ q ∈ l
  | [], h => by simpa [dictInsert] using h
  | (k2, v2) :: rest, h => by
    by_cases hk : k2 = k
    · subst hk
      simp only [dictInsert, beq_self_eq_true, if_true, List.mem_cons] at h
      rcases h with h | h
      · exact Or.inl h
      · exact Or.inr (List.mem_cons_of_mem _ h)
    · simp only [dictInsert, beq_eq_false_iff_ne.mpr hk, Bool.false_eq_true,
        if_false, List.mem_cons] at h
      rcases h with h | h
      · exact Or.inr (h ▸ List.mem_cons_self _ _)
      · rcases mem_dictInsert h with h2 | h2
        · exact Or.inl h2
        · exact Or.inr (List.mem_cons_of_mem _ h2)

/-- Inserting a fresh key appends. -/
theorem dictInsert_of_fresh {α : Type} (k : String) (v : α) :
    ∀ (l : List (String × α)), (∀ p ∈ l, p.1 ≠ k) →
      dictInsert k v l = l ++ [(k, v)]
  | [], _ => rfl
  | (k2, v2) :: rest, h => by
    have hne : k2 ≠ k := h (k2, v2) (List.mem_cons_self _ _)
    simp only [dictInsert, beq_eq_false_iff_ne.mpr hne, Bool.false_eq_true,
      if_false, List.cons_append, List.cons.injEq, true_and]
    exact dictInsert_of_fresh k v rest
      (fun p hp => h p (List.mem_cons_of_mem _ hp))

/-- Relabeling with pairwise-distinct new keys never merges: the fold
of dict insertions is a plain map. -/
theorem foldl_dictInsert_eq {α : Type} (m : String → String) :
    ∀ (l : List (String × α)) (acc : List (String × α)),
      (acc.map Prod.fst ++ l.map (fun p => m p.1)).Nodup →
      l.foldl (fun acc p => dictInsert (m p.1) p.2 acc) acc
        = acc ++ l.map (fun p => (m p.1, p.2))
  | [], acc, _ => by simp
  | p :: rest, acc, h => by
    have h1 : ∀ q ∈ acc, q.1 ≠ m p.1 := by
      intro q hq hqe
      have hd := (List.nodup_append.mp h).2.2
      exact hd (List.mem_map_of_mem Prod.fst hq) (by simp [hqe])
    have hstep : dictInsert (m p.1) p.2 acc = acc ++ [(m p.1, p.2)] :=
      dictInsert_of_fresh _ _ acc h1
    have h2 : (((acc ++ [(m p.1, p.2)]).map Prod.fst)
        ++ rest.map (fun q => m q.1)).Nodup := by
      simpa [List.append_assoc] using h
    calc (p :: rest).foldl (fun acc q => dictInsert (m q.1) q.2 acc) acc
        = rest.foldl (fun acc q => dictInsert (m q.1) q.2 acc)
            (acc ++ [(m p.1, p.2)]) := by rw [List.foldl_cons, hstep]
      _ = (acc ++ [(m p.1, p.2)]) ++ rest.map (fun q => (m q.1, q.2)) :=
            foldl_dictInsert_eq m rest _ h2
      _ = acc ++ (p :: rest).map (fun q => (m q.1, q.2)) := by
            simp [List.append_assoc]

/-- Every entry of a relabeled node dict comes from an entry of the
input, its key relabeled. -/
theorem mem_foldl_dictInsert {α : Type} (m : String → String) :
    ∀ (l : List (String × α)) (acc : List (String × α))
      (q : String × α),
      q ∈ l.foldl (fun acc p => dictInsert (m p.1) p.2 acc) acc →
      q ∈ acc ∨ ∃ p, p ∈ l ∧ q = (m p.1, p.2)
  | [], acc, q, h => Or.inl (by simpa using h)
  | p :: rest, acc, q, h => by
    rw [List.foldl_cons] at h
    rcases mem_foldl_dictInsert m rest _ q h with h2 | ⟨p2, hp2, he⟩
    · rcases mem_dictInsert h2 with h3 | h3
      · exact Or.inr ⟨p, List.mem_cons_self _ _, h3⟩
      · exact Or.inl h3
    · exact Or.inr ⟨p2, List.mem_cons_of_mem _ hp2, he⟩

/-- Re-adding pairwise-distinct relabeled edges is a plain map. -/
theorem foldl_edgeInsert_eq (m : String → String) :
    ∀ (l : List (String × String)) (acc : List (String × String)),
      (acc ++ l.map (fun e => (m e.1, m e.2))).Nodup →
      l.foldl (fun acc e => edgeInsert (m e.1, m e.2) acc) acc
        = acc ++ l.map (fun e => (m e.1, m e.2))
  | [], acc, _ => by simp
  | e :: rest, acc, h => by
    have h1 : ∀ e2 ∈ acc, e2 ≠ (m e.1, m e.2) := by
      intro e2 he2 hee
      have hd := (List.nodup_append.mp h).2.2
      exact hd he2 (by simp [hee])
    have hstep : edgeInsert (m e.1, m e.2) acc = acc ++ [(m e.1, m e.2)] := by
      clear h
      induction acc with
      | nil => rfl
      | cons e2 rest2 ih =>
        have hne : e2 ≠ (m e.1, m e.2) := h1 e2 (List.mem_cons_self _ _)
        simp only [edgeInsert, beq_eq_false_iff_ne.mpr hne,
          Bool.false_eq_true, if_false, List.cons_append, List.cons.injEq,
          true_and]
        exact ih (fun e3 he3 => h1 e3 (List.mem_cons_of_mem _ he3))
    have h2 : ((acc ++ [(m e.1, m e.2)])
        ++ rest.map (fun e2 => (m e2.1, m e2.2))).Nodup := by
      simpa [List.append_assoc] using h
    calc (e :: rest).foldl (fun acc e2 => edgeInsert (m e2.1, m e2.2) acc) acc
        = rest.foldl (fun acc e2 => edgeInsert (m e2.1, m e2.2) acc)
            (acc ++ [(m e.1, m e.2)]) := by rw [List.foldl_cons, hstep]
      _ = (acc ++ [(m e.1, m e.2)])
            ++ rest.map (fun e2 => (m e2.1, m e2.2)) :=
            foldl_edgeInsert_eq m rest _ h2
      _ = acc ++ (e :: rest).map (fun e2 => (m e2.1, m e2.2)) := by
            simp [List.append_assoc]

/-- On a node list whose dicts all carry the `"node"` key, the rename
loop succeeds and produces exactly the mapping entries and the
mutated dicts described by `mapFn` and `mutFn`. -/
theorem buildRename_ok (suffix : String) (ig : Bool) :
    ∀ (l : List (String × Attrs)),
      (∀ p ∈ l, (attrsFind p.2 "node").isSome = true) →
      buildRename suffix ig l
        = Except.ok (l.filterMap (mapFn suffix ig), l.map (mutFn suffix ig))
  | [], _ => rfl
  | (k, attrs) :: rest, h => by
    have hhead : (attrsFind attrs "node").isSome = true :=
      h (k, attrs) (List.mem_cons_self _ _)
    obtain ⟨n, hn⟩ := Option.isSome_iff_exists.mp hhead
    have hrest := buildRename_ok suffix ig rest
      (fun p hp => h p (List.mem_cons_of_mem _ hp))
    by_cases hc : (ig && n.type == "input") = true
    · have hren : renamedB ig (k, attrs).2 = false := by
        simp [renamedB, hn, hc]
      simp [buildRename, hn, hrest, hc, mapFn, mutFn, hren,
        List.filterMap_cons]
    · have hren : renamedB ig (k, attrs).2 = true := by
        simp only [renamedB, hn]
        simp only [Bool.eq_false_iff, ne_eq] at hc
        simp [hc]
      simp [buildRename, hn, hrest, hc, mapFn, mutFn, hren,
        List.filterMap_cons]

/-- Reading `renamedB` with the flag unset: every node is renamed. -/
theorem renamedB_false (a : Attrs) : renamedB false a = true := by
  unfold renamedB
  cases attrsFind a "node" <;> simp

/-- With pairwise-distinct keys, `find?` on its own key returns the
entry itself. -/
theorem find_self {α : Type} :
    ∀ (l : List (String × α)), (l.map Prod.fst).Nodup →
      ∀ p ∈ l, l.find? (fun q => q.1 == p.1) = some p
  | [], _, p, hp => absurd hp (List.not_mem_nil p)
  | q :: rest, hk, p, hp => by
    rcases List.mem_cons.mp hp with h | h
    · subst h
      simp [List.find?_cons]
    · have hq : q.1 ≠ p.1 := by
        intro he
        have h1 : q.1 ∉ rest.map Prod.fst :=
          (List.nodup_cons.mp (by simpa using hk)).1
        exact h1 (he ▸ List.mem_map_of_mem Prod.fst h)
      have hrest := find_self rest
        (List.nodup_cons.mp (by simpa using hk)).2 p h
      simp [List.find?_cons, beq_eq_false_iff_ne.mpr hq, hrest]

/-- Every `name_mapping` key is a graph key. -/
theorem mapping_keys_sub (suffix : String) (ig : Bool)
    (l : List (String × Attrs)) :
    ∀ q ∈ l.filterMap (mapFn suffix ig), q.1 ∈ l.map Prod.fst := by
  intro q hq
  rcases List.mem_filterMap.mp hq with ⟨p, hp, he⟩
  unfold mapFn at he
  by_cases hr : renamedB ig p.2 = true
  · simp only [hr, if_true, Option.some.injEq] at he
    exact he ▸ List.mem_map_of_mem Prod.fst hp
  · simp [hr] at he

/-- The value `mapping.get(k, k)` computed from the rename loop agrees with the
per-node description: keys of renamed nodes gain the suffix, all
other keys are left alone. -/
theorem mappingGet_eq (suffix : String) (ig : Bool) :
    ∀ (l : List (String × Attrs)), (l.map Prod.fst).Nodup →
      ∀ k, mappingGet (l.filterMap (mapFn suffix ig)) k
        = match l.find? (fun p => p.1 == k) with
          | some p => if renamedB ig p.2 then k ++ suffix else k
          | none => k
  | [], _, k => by simp [mappingGet]
  | p :: rest, hk, k => by
    have hk2 : (rest.map Prod.fst).Nodup :=
      (List.nodup_cons.mp (by simpa using hk)).2
    have hnotin : p.1 ∉ rest.map Prod.fst :=
      (List.nodup_cons.mp (by simpa using hk)).1
    by_cases he : p.1 = k
    · subst he
      by_cases hr : renamedB ig p.2 = true
      · simp [List.filterMap_cons, mapFn, hr, mappingGet, List.find?_cons]
      · have hnone : (rest.filterMap (mapFn suffix ig)).find?
            (fun q => q.1 == p.1) = none := by
          rw [List.find?_eq_none]
          intro q hq hb
          exact hnotin ((beq_iff_eq.mp hb) ▸ mapping_keys_sub suffix ig rest q hq)
        simp [List.filterMap_cons, mapFn, hr, mappingGet, List.find?_cons,
          hnone]
    · have hbe : (p.1 == k) = false := beq_eq_false_iff_ne.mpr he
      have hrest := mappingGet_eq suffix ig rest hk2 k
      by_cases hr : renamedB ig p.2 = true
      · simp [List.filterMap_cons, mapFn, hr, mappingGet, List.find?_cons,
          hbe] at hrest ⊢
        exact hrest
      · simp [List.filterMap_cons, mapFn, hr, mappingGet, List.find?_cons,
          hbe] at hrest ⊢
        exact hrest

/-- Reading `renameKey` at a key of the graph, read off that node's record. -/
theorem renameKey_self (g : Graph) (s : String) (ig : Bool)
    (hk : (g.nodes.map Prod.fst).Nodup) (p : String × Attrs)
    (hp : p ∈ g.nodes) :
    renameKey g s ig p.1 = if renamedB ig p.2 then p.1 ++ s else p.1 := by
  unfold renameKey
  rw [find_self g.nodes hk p hp]

/-- The lookup in the computed `name_mapping` is `renameKey`. -/
theorem mappingGet_renameKey (g : Graph) (s : String) (ig : Bool)
    (hk : (g.nodes.map Prod.fst).Nodup) (k : String) :
    mappingGet (g.nodes.filterMap (mapFn s ig)) k = renameKey g s ig k := by
  rw [mappingGet_eq s ig g.nodes hk k]
  unfold renameKey
  rfl

/-- Master lemma, node part: on a well-formed graph whose nodes all
carry records and whose new keys are pairwise distinct, renaming
maps each node entry to its suffixed form (inputs untouched when the
flag is set). -/
theorem rename_nodes_nodes (g : Graph) (s : String) (ig : Bool)
    (hk : (g.nodes.map Prod.fst).Nodup)
    (hrec : ∀ p ∈ g.nodes, (attrsFind p.2 "node").isSome = true)
    (hnew : (newKeys g s ig).Nodup) :
    (rename_nodes g s ig).map Graph.nodes
      = Except.ok (g.nodes.map (fun p =>
          if renamedB ig p.2 then (p.1 ++ s, updAttrs s p.2) else p)) := by
  have hget := mappingGet_renameKey g s ig hk
  have hsel := renameKey_self g s ig hk
  simp only [rename_nodes, buildRename_ok s ig g.nodes hrec, Except.map]
  have hkeys2 : ((g.nodes.map (mutFn s ig)).map
      (fun p => mappingGet (g.nodes.filterMap (mapFn s ig)) p.1))
        = newKeys g s ig := by
    rw [List.map_map]
    apply List.map_congr_left
    intro p hp
    show mappingGet (g.nodes.filterMap (mapFn s ig)) (mutFn s ig p).1 = _
    rw [show (mutFn s ig p).1 = p.1 from rfl, hget, hsel p hp]
  unfold relabelNodes
  rw [foldl_dictInsert_eq (mappingGet (g.nodes.filterMap (mapFn s ig)))
    (g.nodes.map (mutFn s ig)) [] (by simpa [hkeys2] using hnew)]
  simp only [List.nil_append, List.map_map, Except.ok.injEq]
  apply List.map_congr_left
  intro p hp
  show (mappingGet (g.nodes.filterMap (mapFn s ig)) (mutFn s ig p).1,
    (mutFn s ig p).2) = _
  rw [show (mutFn s ig p).1 = p.1 from rfl, hget, hsel p hp]
  by_cases hr : renamedB ig p.2 = true
  · simp [mutFn, hr]
  · simp [mutFn, hr]

/-- Master lemma, edge part: when the relabeled edges are pairwise
distinct, renaming maps each edge to its endpoint-relabeled form. -/
theorem rename_nodes_edges (g : Graph) (s : String) (ig : Bool)
    (hk : (g.nodes.map Prod.fst).Nodup)
    (hrec : ∀ p ∈ g.nodes, (attrsFind p.2 "node").isSome = true)
    (hedges : (g.edges.map (fun e =>
      (renameKey g s ig e.1, renameKey g s ig e.2))).Nodup) :
    (rename_nodes g s ig).map Graph.edges
      = Except.ok (g.edges.map (fun e =>
          (renameKey g s ig e.1, renameKey g s ig e.2))) := by
  have hm : mappingGet (g.nodes.filterMap (mapFn s ig)) = renameKey g s ig :=
    funext (mappingGet_renameKey g s ig hk)
  simp only [rename_nodes, buildRename_ok s ig g.nodes hrec, Except.map]
  unfold relabelEdges
  rw [hm, foldl_edgeInsert_eq (renameKey g s ig) g.edges []
    (by simpa using hedges)]
  simp

/-- Appending the same suffix to two different strings keeps them
different. -/
theorem strAppend_right_cancel {a b s : String} (h : a ++ s = b ++ s) :
    a = b := by
  have hd : a.data ++ s.data = b.data ++ s.data := by
    have h2 := congrArg String.data h
    simpa [String.data_append] using h2
  exact String.ext (List.append_cancel_right hd)

/-- With the flag unset every new key gains the suffix, so distinct
old keys stay distinct. -/
theorem newKeys_false_nodup (g : Graph) (s : String)
    (hk : (g.nodes.map Prod.fst).Nodup) : (newKeys g s false).Nodup := by
  have he : newKeys g s false = (g.nodes.map Prod.fst).map
      (fun k => k ++ s) := by
    unfold newKeys
    rw [List.map_map]
    apply List.map_congr_left
    intro p _
    simp [renamedB_false]
  rw [he]
  exact hk.map (fun a b hab => strAppend_right_cancel hab)

/-- Renaming a record and then erasing names is erasing names. -/
theorem eraseName_updAttrs (s : String) (a : Attrs) :
    eraseName (updAttrs s a) = eraseName a := by
  unfold updAttrs
  induction a with
  | nil => rfl
  | cons q rest ih =>
    obtain ⟨k2, n⟩ := q
    by_cases h : k2 = "node"
    · subst h
      simp [attrsUpdate, eraseName]
    · simp only [attrsUpdate, beq_eq_false_iff_ne.mpr h, Bool.false_eq_true,
        if_false, eraseName, List.map_cons, List.cons.injEq, true_and]
      exact ih

/-- Names after renaming: a renamed record keeps everything but the
`name` field, which gains the suffix. -/
theorem attrsFind_updAttrs (s : String) (a : Attrs) :
    attrsFind (updAttrs s a) "node"
      = (attrsFind a "node").map (fun n => { n with name := n.name ++ s }) :=
  attrsFind_attrsUpdate "node" _ a

/-- C1 counterexample: on the graph `gClash` (non-input node `a`,
input node `a_c`), renaming with suffix `_c` and `ignore_inputs =
true` does not produce the per-node transformation the claim states:
the renamed node collides with the untouched input node and the two
merge, leaving one node instead of two. -/
theorem c1_counterexample :
    (rename_nodes gClash "_c" true).map Graph.nodes
      ≠ Except.ok (gClash.nodes.map (fun p =>
          if renamedB true p.2 then (p.1 ++ "_c", updAttrs "_c" p.2) else p))
    ∧ (rename_nodes gClash "_c" true).map (fun g2 => g2.nodes.length)
      = Except.ok 1
    ∧ gClash.nodes.length = 2 :=
  ⟨by decide, by decide, by decide⟩

/-- C1 (amended): provided no two of the new node keys collide,
`rename_nodes` with `ignore_inputs = true` leaves every node of type
`"input"` untouched (key and record name) and maps every other node
key `k` to `k ++ suffix` and its record name `n` to `n ++ suffix`;
with `ignore_inputs = false` every node is renamed this way (there
distinct keys can never collide). -/
theorem c1_rename_selective (g : Graph) (s : String)
    (hk : (g.nodes.map Prod.fst).Nodup)
    (hrec : ∀ p ∈ g.nodes, (attrsFind p.2 "node").isSome = true)
    (hnew : (newKeys g s true).Nodup) :
    (rename_nodes g s true).map Graph.nodes
      = Except.ok (g.nodes.map (fun p =>
          if renamedB true p.2 then (p.1 ++ s, updAttrs s p.2) else p))
    ∧ (rename_nodes g s false).map Graph.nodes
      = Except.ok (g.nodes.map (fun p => (p.1 ++ s, updAttrs s p.2))) := by
  refine ⟨rename_nodes_nodes g s true hk hrec hnew, ?_⟩
  rw [rename_nodes_nodes g s false hk hrec (newKeys_false_nodup g s hk)]
  simp only [Except.ok.injEq]
  apply List.map_congr_left
  intro p _
  simp [renamedB_false]

/-- C1 witness: the amended rename-selectivity theorem applied to the
two-node graph `gWit` with suffix `_t`. -/
theorem c1_rename_selective_witness :
    ((gWit.nodes.map Prod.fst).Nodup)
    ∧ (∀ p ∈ gWit.nodes, (attrsFind p.2 "node").isSome = true)
    ∧ ((newKeys gWit "_t" true).Nodup)
    ∧ ((rename_nodes gWit "_t" true).map Graph.nodes
        = Except.ok (gWit.nodes.map (fun p =>
            if renamedB true p.2 then (p.1 ++ "_t", updAttrs "_t" p.2)
            else p))
      ∧ (rename_nodes gWit "_t" false).map Graph.nodes
        = Except.ok (gWit.nodes.map (fun p =>
            (p.1 ++ "_t", updAttrs "_t" p.2)))) :=
  ⟨by decide, by decide, by decide,
    c1_rename_selective gWit "_t" (by decide) (by decide) (by decide)⟩

/-- C7 counterexample: on `gClash2`, renaming with `ignore_inputs =
true` merges the renamed `OR2` node into the input node's key: a
record is removed from the graph, so the name-erased node sequence is
not preserved. -/
theorem c7_counterexample :
    (rename_nodes gClash2 "_x" true).map
        (fun g2 => g2.nodes.map (fun p => eraseName p.2))
      ≠ Except.ok (gClash2.nodes.map (fun p => eraseName p.2))
    ∧ (rename_nodes gClash2 "_x" true).map (fun g2 => g2.nodes.length)
      = Except.ok 1
    ∧ gClash2.nodes.length = 2 :=
  ⟨by decide, by decide, by decide⟩

/-- C7 (amended): provided the relabeling collides on no node keys
and on no edges, renaming mutates at most the `name` field of each
record: erasing all `name` fields gives back the original attribute
dicts, node for node (so no record is removed and every other field
is unchanged), and every edge is exactly the original edge with both
endpoints relabeled. -/
theorem c7_rename_frame (g : Graph) (s : String) (ig : Bool)
    (hk : (g.nodes.map Prod.fst).Nodup)
    (hrec : ∀ p ∈ g.nodes, (attrsFind p.2 "node").isSome = true)
    (hnew : (newKeys g s ig).Nodup)
    (hedges : (g.edges.map (fun e =>
      (renameKey g s ig e.1, renameKey g s ig e.2))).Nodup) :
    (rename_nodes g s ig).map
        (fun g2 => g2.nodes.map (fun p => eraseName p.2))
      = Except.ok (g.nodes.map (fun p => eraseName p.2))
    ∧ (rename_nodes g s ig).map Graph.edges
      = Except.ok (g.edges.map (fun e =>
          (renameKey g s ig e.1, renameKey g s ig e.2))) := by
  refine ⟨?_, rename_nodes_edges g s ig hk hrec hedges⟩
  have hnn := rename_nodes_nodes g s ig hk hrec hnew
  cases hre : rename_nodes g s ig with
  | error e => rw [hre] at hnn; simp [Except.map] at hnn
  | ok g2 =>
    rw [hre] at hnn
    simp only [Except.map, Except.ok.injEq] at hnn
    simp only [Except.map, Except.ok.injEq]
    rw [hnn, List.map_map]
    apply List.map_congr_left
    intro p _
    by_cases hr : renamedB ig p.2 = true
    · simp [hr, eraseName_updAttrs]
    · simp [hr]

/-- C7 witness: the amended frame theorem applied to `gWit2` with
suffix `_u` and `ignore_inputs = true`. -/
theorem c7_rename_frame_witness :
    ((gWit2.nodes.map Prod.fst).Nodup)
    ∧ (∀ p ∈ gWit2.nodes, (attrsFind p.2 "node").isSome = true)
    ∧ ((newKeys gWit2 "_u" true).Nodup)
    ∧ ((gWit2.edges.map (fun e =>
        (renameKey gWit2 "_u" true e.1, renameKey gWit2 "_u" true e.2))).Nodup)
    ∧ ((rename_nodes gWit2 "_u" true).map
          (fun g2 => g2.nodes.map (fun p => eraseName p.2))
        = Except.ok (gWit2.nodes.map (fun p => eraseName p.2))
      ∧ (rename_nodes gWit2 "_u" true).map Graph.edges
        = Except.ok (gWit2.edges.map (fun e =>
            (renameKey gWit2 "_u" true e.1, renameKey gWit2 "_u" true e.2)))) :=
  ⟨by decide, by decide, by decide, by decide,
    c7_rename_frame gWit2 "_u" true (by decide) (by decide) (by decide)
      (by decide)⟩

/-- C8: renaming preserves the key–name lockstep invariant.  If
every node's graph key equals its record's `name`, then after
`rename_nodes` (any suffix, any flag) every node's key again equals
its record's `name` — renamed nodes gained the suffix on both, and
even nodes merged by a key collision keep the property, because the
surviving record is the one whose new name is the surviving key. -/
theorem c8_lockstep (g : Graph) (s : String) (ig : Bool) (g2 : Graph)
    (hk : (g.nodes.map Prod.fst).Nodup)
    (hl : ∀ p ∈ g.nodes, (attrsFind p.2 "node").map Node.name = some p.1)
    (hr : rename_nodes g s ig = Except.ok g2) :
    ∀ p ∈ g2.nodes, (attrsFind p.2 "node").map Node.name = some p.1 := by
  have hrec : ∀ p ∈ g.nodes, (attrsFind p.2 "node").isSome = true := by
    intro p hp
    have h0 := hl p hp
    cases hfind : attrsFind p.2 "node"
    · rw [hfind] at h0
      simp at h0
    · simp [hfind]
  have hok : rename_nodes g s ig = Except.ok
      { nodes := relabelNodes (mappingGet (g.nodes.filterMap (mapFn s ig)))
          (g.nodes.map (mutFn s ig)),
        edges := relabelEdges (mappingGet (g.nodes.filterMap (mapFn s ig)))
          g.edges } := by
    simp only [rename_nodes, buildRename_ok s ig g.nodes hrec]
  rw [hok] at hr
  have hg2 := Except.ok.inj hr
  intro p hp
  rw [← hg2] at hp
  rcases mem_foldl_dictInsert _ _ _ p hp with h0 | ⟨q, hq, he⟩
  · simp at h0
  · rcases List.mem_map.mp hq with ⟨q0, hq0, rfl⟩
    subst he
    have hget := mappingGet_renameKey g s ig hk q0.1
    have hsel := renameKey_self g s ig hk q0 hq0
    have hl0 := hl q0 hq0
    obtain ⟨n, hfind⟩ :=
      Option.isSome_iff_exists.mp (hrec q0 hq0)
    rw [hfind] at hl0
    simp only [Option.map_some', Option.some.injEq] at hl0
    by_cases hrb : renamedB ig q0.2 = true
    · have h1 : (mutFn s ig q0).2 = updAttrs s q0.2 := by simp [mutFn, hrb]
      have h2 : (mutFn s ig q0).1 = q0.1 := rfl
      simp only [h1, h2, hget, hsel, hrb, if_true, attrsFind_updAttrs,
        hfind, Option.map_some', Option.some.injEq]
      rw [hl0]
    · have h1 : (mutFn s ig q0).2 = q0.2 := by simp [mutFn, hrb]
      have h2 : (mutFn s ig q0).1 = q0.1 := rfl
      simp only [h1, h2, hget, hsel, hrb, Bool.false_eq_true, if_false,
        hfind, Option.map_some', Option.some.injEq]
      exact hl0

/-- C8 witness: the lockstep theorem applied to `gWit` with suffix
`_t` and `ignore_inputs = true`. -/
theorem c8_lockstep_witness :
    ((gWit.nodes.map Prod.fst).Nodup)
    ∧ (∀ p ∈ gWit.nodes, (attrsFind p.2 "node").map Node.name = some p.1)
    ∧ (∀ p ∈ (Graph.mk
          [("x_t", [("node", mkNode "x_t" "AND2")]),
           ("in1", [("node", mkNode "in1" "input")])]
          [("in1", "x_t")]).nodes,
        (attrsFind p.2 "node").map Node.name = some p.1) :=
  ⟨by decide, by decide,
    c8_lockstep gWit "_t" true _ (by decide) (by decide) (by decide)⟩

/-- Two lists neither of which is lexicographically below the other
are equal. -/
theorem lexLt_total : ∀ as bs : List Char,
    lexLt as bs = false → lexLt bs as = false → as = bs
  | [], [], _, _ => rfl
  | [], _ :: _, h1, _ => by simp [lexLt] at h1
  | _ :: _, [], _, h2 => by simp [lexLt] at h2
  | a :: as, b :: bs, h1, h2 => by
    by_cases hab : a < b
    · simp [lexLt, hab] at h1
    · by_cases hba : b < a
      · simp [lexLt, hba] at h2
      · have hae : a = b := le_antisymm (not_lt.mp hba) (not_lt.mp hab)
        subst hae
        have h1b : lexLt as bs = false := by
          simpa [lexLt, lt_irrefl] using h1
        have h2b : lexLt bs as = false := by
          simpa [lexLt, lt_irrefl] using h2
        rw [lexLt_total as bs h1b h2b]

/-- Lexicographic order on character lists is transitive. -/
theorem lexLt_trans : ∀ as bs cs : List Char,
    lexLt as bs = true → lexLt bs cs = true → lexLt as cs = true
  | _, _, [], _, h2 => by simp [lexLt] at h2
  | [], _, _ :: _, _, _ => by simp [lexLt]
  | _ :: _, [], _, h1, _ => by simp [lexLt] at h1
  | a :: as, b :: bs, c :: cs, h1, h2 => by
    by_cases hab : a < b
    · by_cases hbc : b < c
      · simp [lexLt, lt_trans hab hbc]
      · by_cases hcb : c < b
        · simp [lexLt, hcb, hbc] at h2
        · have : b = c := le_antisymm (not_lt.mp hcb) (not_lt.mp hbc)
          subst this
          simp [lexLt, hab]
    · by_cases hba : b < a
      · simp [lexLt, hab, hba] at h1
      · have : a = b := le_antisymm (not_lt.mp hba) (not_lt.mp hab)
        subst this
        by_cases hac : a < c
        · simp [lexLt, hac]
        · by_cases hca : c < a
          · simp [lexLt, hca, hac] at h2
          · have : a = c := le_antisymm (not_lt.mp hca) (not_lt.mp hac)
            subst this
            have h1b : lexLt as bs = true := by
              simpa [lexLt, lt_irrefl] using h1
            have h2b : lexLt bs cs = true := by
              simpa [lexLt, lt_irrefl] using h2
            simpa [lexLt, lt_irrefl] using lexLt_trans as bs cs h1b h2b

/-- The order `strLeB` is total. -/
theorem strLeB_total (a b : String) (h : strLeB a b = false) :
    strLeB b a = true := by
  unfold strLeB strLtB at h ⊢
  rw [Bool.or_eq_false_iff] at h
  by_cases h2 : lexLt b.data a.data = true
  · simp [h2]
  · have he : b.data = a.data :=
      lexLt_total _ _ (by simpa using h2) h.1
    have hba : b = a := String.ext he
    subst hba
    simp at h

/-- The order `strLeB` is transitive. -/
theorem strLeB_trans (a b c : String) (h1 : strLeB a b = true)
    (h2 : strLeB b c = true) : strLeB a c = true := by
  unfold strLeB strLtB at h1 h2 ⊢
  rw [Bool.or_eq_true] at h1 h2 ⊢
  rcases h1 with h1 | h1
  · rcases h2 with h2 | h2
    · exact Or.inl (lexLt_trans _ _ _ h1 h2)
    · have hbc : b = c := by simpa using h2
      subst hbc
      exact Or.inl h1
  · have hab : a = b := by simpa using h1
    subst hab
    rcases h2 with h2 | h2
    · exact Or.inl h2
    · exact Or.inr (by simpa using h2)

/-- Membership after an ordered insertion. -/
theorem mem_insertStr (x y : String) :
    ∀ l : List String, (y ∈ insertStr x l ↔ y = x ∨ y ∈ l)
  | [] => by simp [insertStr]
  | z :: zs => by
    by_cases h : strLeB x z = true
    · simp [insertStr, h, List.mem_cons]
    · simp only [insertStr, h, Bool.false_eq_true, if_false, List.mem_cons,
        mem_insertStr x y zs]
      tauto

/-- Ordered insertion preserves sortedness. -/
theorem pairwise_insertStr (x : String) :
    ∀ l : List String, l.Pairwise (fun a b => strLeB a b = true) →
      (insertStr x l).Pairwise (fun a b => strLeB a b = true)
  | [], _ => by simp [insertStr]
  | z :: zs, h => by
    rcases List.pairwise_cons.mp h with ⟨hz, hzs⟩
    by_cases hle : strLeB x z = true
    · rw [insertStr, if_pos hle]
      refine List.pairwise_cons.mpr ⟨?_, h⟩
      intro w hw
      rcases List.mem_cons.mp hw with h2 | h2
      · exact h2 ▸ hle
      · exact strLeB_trans x z w hle (hz w h2)
    · rw [insertStr, if_neg (by simpa using hle)]
      refine List.pairwise_cons.mpr ⟨?_, pairwise_insertStr x zs hzs⟩
      intro w hw
      rcases (mem_insertStr x w zs).mp hw with h2 | h2
      · exact h2 ▸ strLeB_total x z (Bool.not_eq_true _ ▸ hle)
      · exact hz w h2

/-- Indeed `sortStrings` sorts. -/
theorem pairwise_sortStrings :
    ∀ l : List String,
      (sortStrings l).Pairwise (fun a b => strLeB a b = true)
  | [] => List.Pairwise.nil
  | x :: xs => pairwise_insertStr x _ (pairwise_sortStrings xs)

/-- The sort `sortStrings` keeps exactly the input's elements. -/
theorem mem_sortStrings (y : String) :
    ∀ l : List String, (y ∈ sortStrings l ↔ y ∈ l)
  | [] => Iff.rfl
  | x :: xs => by
    simp only [sortStrings, mem_insertStr, mem_sortStrings y xs,
      List.mem_cons]

/-- Ordered insertion of a fresh element preserves distinctness. -/
theorem nodup_insertStr (x : String) :
    ∀ l : List String, x ∉ l → l.Nodup → (insertStr x l).Nodup
  | [], _, _ => by simp [insertStr]
  | z :: zs, hx, h => by
    rcases List.nodup_cons.mp h with ⟨hz, hzs⟩
    by_cases hle : strLeB x z = true
    · rw [insertStr, if_pos hle]
      exact List.nodup_cons.mpr ⟨hx, h⟩
    · rw [insertStr, if_neg (by simpa using hle)]
      refine List.nodup_cons.mpr ⟨?_, nodup_insertStr x zs
        (fun hc => hx (List.mem_cons_of_mem _ hc)) hzs⟩
      intro hc
      rcases (mem_insertStr x z zs).mp hc with h2 | h2
      · exact hx (List.mem_cons.mpr (Or.inl h2.symm))
      · exact hz h2

/-- The sort `sortStrings` preserves distinctness. -/
theorem nodup_sortStrings :
    ∀ l : List String, l.Nodup → (sortStrings l).Nodup
  | [], _ => List.nodup_nil
  | x :: xs, h => by
    rcases List.nodup_cons.mp h with ⟨hx, hxs⟩
    exact nodup_insertStr x _
      (fun hc => hx ((mem_sortStrings x xs).mp hc))
      (nodup_sortStrings xs hxs)

/-- A sorted list of distinct strings is strictly sorted. -/
theorem pairwise_strict_of_le_nodup (l : List String)
    (h1 : l.Pairwise (fun a b => strLeB a b = true)) (h2 : l.Nodup) :
    l.Pairwise (fun a b => strLtB a b = true) := by
  have h3 := List.Pairwise.and h1 h2
  refine h3.imp ?_
  intro a b hab
  rcases hab with ⟨hle, hne⟩
  unfold strLeB at hle
  rw [Bool.or_eq_true] at hle
  rcases hle with h | h
  · exact h
  · exact absurd (by simpa using h) hne

/-- C2: `get_registers` returns, in graph-iteration order (a sublist
of the node-attribute sequence), exactly the attribute dicts — not
the bare records — whose record's type is in the register table;
empty iff no node qualifies.  The graph is read, never written. -/
theorem c2_get_registers_spec (registers : List String) (g : Graph) :
    (get_registers registers g).Sublist (g.nodes.map Prod.snd)
    ∧ (∀ a : Attrs, a ∈ get_registers registers g
        ↔ a ∈ g.nodes.map Prod.snd ∧ isRegAttrs registers a = true)
    ∧ (get_registers registers g = []
        ↔ (g.nodes.map Prod.snd).all
            (fun a => !(isRegAttrs registers a)) = true) := by
  refine ⟨List.filter_sublist _, fun a => List.mem_filter, ?_⟩
  simp [get_registers, List.filter_eq_nil_iff]

/-- C3: the stats report is one `"<type>: <count>"` line per distinct
type of a record-carrying node, in strictly ascending lexicographic
order of type name, followed by the horizontal-rule line; on the
four-node example with types `AND2, AND2, DFF, OR2` it emits exactly
`AND2: 2`, `DFF: 1`, `OR2: 1`, rule.  The graph is not written. -/
theorem c3_graph_stat_spec (hdr : String) (g : Graph) :
    (∃ ts : List String,
      print_graph_stat hdr g
        = ts.map (fun t => t ++ ": " ++ toString ((gateTypes g).count t))
            ++ [hdr]
      ∧ ts.Pairwise (fun a b => strLtB a b = true)
      ∧ (∀ t : String, t ∈ ts ↔ t ∈ gateTypes g))
    ∧ print_graph_stat hdr statExample
      = ["AND2: 2", "DFF: 1", "OR2: 1", hdr] := by
  refine ⟨⟨sortStrings (gateTypes g).dedup, ?_, ?_, ?_⟩, rfl⟩
  · simp [print_graph_stat, npUnique, List.map_map]
  · exact pairwise_strict_of_le_nodup _ (pairwise_sortStrings _)
      (nodup_sortStrings _ (List.nodup_dedup _))
  · intro t
    rw [mem_sortStrings, List.mem_dedup]

/-- Appending the empty string is the identity. -/
theorem strAppend_empty (a : String) : a ++ "" = a := by
  apply String.ext
  simp [String.data_append]

/-- String concatenation is associative. -/
theorem strAppend_assoc (a b c : String) :
    (a ++ b) ++ c = a ++ (b ++ c) := by
  apply String.ext
  simp [String.data_append]

/-- The single pass of `print_ports` accumulates exactly the names of
the `"input"`-typed ports on the first component and all other names
on the second, space-separated in iteration order. -/
theorem portStep_fold :
    ∀ (ports : List (String × Port)) (i o : String),
      ports.foldl portStep (i, o)
        = (i ++ joinSp ((ports.filter
              (fun pp => pp.2.type == "input")).map Prod.fst),
           o ++ joinSp ((ports.filter
              (fun pp => !(pp.2.type == "input"))).map Prod.fst))
  | [], i, o => by simp [joinSp, strAppend_empty]
  | pp :: rest, i, o => by
    by_cases h : (pp.2.type == "input") = true
    · have hstep : portStep (i, o) pp = (i ++ pp.1 ++ " ", o) := by
        simp [portStep, h]
      rw [List.foldl_cons, hstep, portStep_fold rest (i ++ pp.1 ++ " ") o]
      simp [List.filter_cons, h, joinSp, strAppend_assoc]
    · have hstep : portStep (i, o) pp = (i, o ++ pp.1 ++ " ") := by
        simp [portStep, h]
      rw [List.foldl_cons, hstep, portStep_fold rest i (o ++ pp.1 ++ " ")]
      simp [List.filter_cons, h, joinSp, strAppend_assoc]

/-- C6: `print_ports` emits exactly four lines — rule, the Inputs
line listing the names of the `"input"`-typed ports, the Outputs
line listing every other port name (any type other than `"input"`
counts as output), both space-separated in mapping-iteration order,
and a final rule; on the example `a` (input), `b` (output), `c`
(input) the Inputs line is `a c` and the Outputs line is `b`. -/
theorem c6_print_ports_spec (hdr : String)
    (ports : List (String × Port)) :
    print_ports hdr ports
      = [hdr,
         "Inputs:  " ++ joinSp ((ports.filter
            (fun pp => pp.2.type == "input")).map Prod.fst),
         "Outputs: " ++ joinSp ((ports.filter
            (fun pp => !(pp.2.type == "input"))).map Prod.fst),
         hdr]
    ∧ print_ports hdr portsExample
      = [hdr, "Inputs:  a c ", "Outputs: b ", hdr] := by
  refine ⟨?_, rfl⟩
  simp [print_ports, portStep_fold]

/-- Dropping record-less nodes changes no collected gate type. -/
theorem gateTypes_strip :
    ∀ l : List (String × Attrs),
      ((l.filter (fun p => hasNodeKey p.2)).map Prod.snd).filterMap
          (fun a => (attrsFind a "node").map Node.type)
        = (l.map Prod.snd).filterMap
          (fun a => (attrsFind a "node").map Node.type)
  | [] => rfl
  | p :: rest => by
    by_cases h : hasNodeKey p.2 = true
    · simp only [List.filter_cons, h, if_true, List.map_cons,
        List.filterMap_cons, gateTypes_strip rest]
    · have hnone : attrsFind p.2 "node" = none := by
        unfold hasNodeKey at h
        cases hf : attrsFind p.2 "node"
        · rfl
        · rw [hf] at h
          simp at h
      simp only [List.filter_cons, h, Bool.false_eq_true, if_false,
        List.map_cons, List.filterMap_cons, hnone, Option.map_none',
        gateTypes_strip rest]

/-- Dropping record-less nodes changes no extracted register. -/
theorem registers_strip (registers : List String) :
    ∀ l : List (String × Attrs),
      ((l.filter (fun p => hasNodeKey p.2)).map Prod.snd).filter
          (isRegAttrs registers)
        = (l.map Prod.snd).filter (isRegAttrs registers)
  | [] => rfl
  | p :: rest => by
    by_cases h : hasNodeKey p.2 = true
    · simp only [List.filter_cons, h, if_true, List.map_cons,
        registers_strip registers rest]
    · have hnone : attrsFind p.2 "node" = none := by
        unfold hasNodeKey at h
        cases hf : attrsFind p.2 "node"
        · rfl
        · rw [hf] at h
          simp at h
      have hreg : isRegAttrs registers p.2 = false := by
        unfold isRegAttrs
        rw [hnone]
      simp only [List.filter_cons, h, Bool.false_eq_true, if_false,
        List.map_cons, hreg, registers_strip registers rest]

/-- C10: `print_graph_stat` and `get_registers` are total functions
of the graph (they return plain values — nothing raises), and nodes
whose attribute dict lacks the `"node"` record are silently
excluded: dropping them first changes neither the stats report nor
the extracted register list. -/
theorem c10_recordless_skipped (hdr : String) (registers : List String)
    (g : Graph) :
    print_graph_stat hdr (stripRecordless g) = print_graph_stat hdr g
    ∧ get_registers registers (stripRecordless g)
      = get_registers registers g := by
  constructor
  · unfold print_graph_stat gateTypes stripRecordless
    rw [gateTypes_strip]
  · unfold get_registers stripRecordless
    rw [registers_strip]

/-- C4 counterexample: on a filesystem with working directory
`/home` containing `a.txt`, the validator accepts the relative path
`a.txt` and returns it as constructed — not the resolved path
`/home/a.txt` the claim promises. -/
theorem c4_counterexample :
    ap_check_file_exists fsHome "a.txt" = Except.ok "a.txt"
    ∧ resolvePath fsHome "a.txt" = "/home/a.txt"
    ∧ ("a.txt" : String) ≠ "/home/a.txt" :=
  ⟨by decide, by decide, by decide⟩

/-- C4 (amended): the validator succeeds exactly when the path names
an existing regular file, returning the path object as constructed
from the input (not resolved to absolute); otherwise it raises an
argument error `"File <path> does not exist"` naming the path. -/
theorem c4_validate_file_spec (fs : FS) (s : String) :
    (ap_check_file_exists fs s = Except.ok s ↔ isFile fs s = true)
    ∧ (ap_check_file_exists fs s
        = Except.error ("File " ++ s ++ " does not exist")
      ↔ isFile fs s = false) := by
  unfold ap_check_file_exists
  by_cases h : isFile fs s = true
  · simp [h]
  · rw [Bool.not_eq_true] at h
    simp [h]

/-- C5: the creatable-path validator succeeds exactly when the parent
of the given path exists (the path itself need not), returning the
path not resolved to absolute; otherwise it raises an argument error
`"Path <parent> does not exist"` naming the parent. -/
theorem c5_validate_path_spec (fs : FS) (p : String) :
    (ap_check_dir_exists fs p = Except.ok p
      ↔ pathExists fs (parentPath p) = true)
    ∧ (ap_check_dir_exists fs p
        = Except.error ("Path " ++ parentPath p ++ " does not exist")
      ↔ pathExists fs (parentPath p) = false) := by
  unfold ap_check_dir_exists
  by_cases h : pathExists fs (parentPath p) = true
  · simp [h]
  · rw [Bool.not_eq_true] at h
    simp [h]

/-- When every queried package is known to the registry, the package
loop writes one `"<name> <version>"` line per package and exits 0. -/
theorem writePkgLines_ok (env : Env) :
    ∀ (packages : List String) (acc : List String),
      (∀ p ∈ packages, (okStr (env.pkgVersion p)).isSome = true) →
      writePkgLines env acc packages
        = ProcOutcome.exited 0 (acc ++ packages.map
            (fun p => p ++ " " ++ (okStr (env.pkgVersion p)).getD ""))
  | [], acc, _ => by simp [writePkgLines]
  | p :: rest, acc, h => by
    obtain ⟨v, hv⟩ := Option.isSome_iff_exists.mp
      (h p (List.mem_cons_self _ _))
    have hv2 : env.pkgVersion p = Except.ok v := by
      cases he : env.pkgVersion p
      · rw [he] at hv
        simp [okStr] at hv
      · rw [he] at hv
        simp only [okStr, Option.some.injEq] at hv
        rw [hv]
    rw [writePkgLines, hv2]
    show writePkgLines env (acc ++ [p ++ " " ++ v]) rest = _
    rw [writePkgLines_ok env rest _
      (fun q hq => h q (List.mem_cons_of_mem _ hq))]
    simp [hv2, okStr, List.append_assoc]

/-- C9 counterexample: when the subprocess call for `git describe`
itself raises (the `git` executable is unavailable), `show_and_exit`
does not substitute the fallback revision string — the exception
propagates and the process does not terminate via `exit(0)`. -/
theorem c9_counterexample :
    show_and_exit envNoGit "tool" []
      = ProcOutcome.raised "FileNotFoundError: git"
    ∧ (show_and_exit envNoGit "tool" []).isExited = false :=
  ⟨rfl, rfl⟩

/-- C9 (amended): `show_and_exit` never returns normally — its only
outcomes are `exit(0)` after writing its report, or a propagated
exception.  When the `git describe` subprocess runs (whatever its
output) and every package query succeeds, it writes the version line
— substituting the fallback string exactly when the stripped git
output is empty — and one line per package, then terminates the
process with exit status 0. -/
theorem c9_version_exit (env : Env) (clitool : String)
    (packages : List String) (out : String)
    (h1 : env.gitDescribe = Except.ok out)
    (h2 : ∀ p ∈ packages, (okStr (env.pkgVersion p)).isSome = true) :
    show_and_exit env clitool packages
      = ProcOutcome.exited 0
          ((clitool ++ " Git version "
              ++ (if strTrim out == "" then
                    "not found (not in Git repository?)"
                  else strTrim out))
            :: packages.map
              (fun p => p ++ " " ++ (okStr (env.pkgVersion p)).getD "")) := by
  simp only [show_and_exit, h1]
  rw [writePkgLines_ok env packages _ h2]
  simp

/-- C9 witness: the amended version-reporter theorem applied to an
environment where `git describe` prints `v1.2-dirty` and the package
registry knows `networkx`. -/
theorem c9_version_exit_witness :
    (envGit.gitDescribe = Except.ok "v1.2-dirty\n")
    ∧ (∀ p ∈ ["networkx"], (okStr (envGit.pkgVersion p)).isSome = true)
    ∧ show_and_exit envGit "synfi" ["networkx"]
      = ProcOutcome.exited 0
          ["synfi Git version v1.2-dirty", "networkx 2.8.8"] :=
  ⟨rfl, by decide,
    (c9_version_exit envGit "synfi" ["networkx"] "v1.2-dirty\n" rfl
      (by decide)).trans (by decide)⟩
